import Mathlib

/-
Verification of the autoscribe documentation tool (src/autoscribe.js)
against its natural-language specification.

Strings are modelled as `List Char`.  JavaScript string primitives used by
the source (`trim`, `slice`, `startsWith`, `endsWith`, `replace` with the
seven concrete regexes of the cleanup chain) are embedded as executable
Lean functions on `List Char`.  JavaScript's `\s` character class is
modelled by its ASCII members (space, tab, newline, carriage return,
vertical tab, form feed); none of the characters relevant to the claims
fall in the omitted Unicode space range.
-/

namespace Autoscribe

/-- Newline character inserted by the splicer. -/
def nl : Char := Char.ofNat 10

/-- Backtick character (code point 96), written via `Char.ofNat`. -/
def bq : Char := Char.ofNat 96

/-- ASCII whitespace, modelling the JavaScript `\s` class and `trim`. -/
def isWs (c : Char) : Bool :=
  c == ' ' || c == Char.ofNat 9 || c == nl || c == Char.ofNat 13 ||
    c == Char.ofNat 11 || c == Char.ofNat 12

/-- Leading-whitespace removal (`trimStart`). -/
def dropWs (l : List Char) : List Char := l.dropWhile isWs

/-- JavaScript `String.prototype.trim`: whitespace stripped from both ends. -/
def trimWs (l : List Char) : List Char :=
  ((dropWs l).reverse.dropWhile isWs).reverse

/-- The three-character block-open marker. -/
def openMarker : List Char := ['/', '*', '*']

/-- The two-character block-close marker. -/
def closeMarker : List Char := ['*', '/']

/-- Embedding of `validateDocumentation` (autoscribe.js lines 137-148):
two early-false checks on the trimmed text, then true. -/
def validateDocumentation (documentation : List Char) : Bool :=
  if ¬ (openMarker.isPrefixOf (trimWs documentation)) then false
  else if ¬ (closeMarker.isSuffixOf (trimWs documentation)) then false
  else true

/-! ### The cleanup chain of `generateDocumentation` (lines 103-119)

Seven successive operations on the (already trimmed) raw model response:
1. `.replace(/BQBQBQ[\s\S]*?BQBQBQ/g, '')`   (BQ = backtick) strip fenced blocks
2. `.replace(/BQBQBQ[\w]*\n?/g, '')`          strip leftover fence markers
3. `.replace(/BQ/g, '')`                      strip stray backticks
4. `.replace(doubled open marker, single)`    collapse a doubled open marker
5. `.replace(leading js|javascript tag, '')`  strip leading language token
6. ensure the text begins with the open marker
7. ensure the text ends with the close marker

Recursive scans use an explicit fuel argument (the input length) so that
every definition is structural and reduces by `rfl`. -/

/-- True when the list begins with three backticks. -/
def startsTriple : List Char → Bool
  | a :: b :: c :: _ => a == bq && b == bq && c == bq
  | _ => false

/-- Suffix strictly after the first occurrence of three backticks, if any
occurrence exists. -/
def afterTriple : List Char → Option (List Char)
  | [] => none
  | c :: t => if startsTriple (c :: t) then some (t.drop 2) else afterTriple t

/-- Fueled scan for regex 1: a fenced block is an opening triple backtick,
a lazily matched body, and a closing triple backtick; a lone opening
triple with no closing occurrence ends the scan unchanged. -/
def stripFencedF : Nat → List Char → List Char
  | 0, l => l
  | _ + 1, [] => []
  | f + 1, c :: t =>
    if startsTriple (c :: t) then
      match afterTriple (t.drop 2) with
      | some rest => stripFencedF f rest
      | none => c :: t
    else c :: stripFencedF f t

/-- Regex 1 of the cleanup chain. -/
def stripFenced (l : List Char) : List Char := stripFencedF l.length l

/-- JavaScript `\w`: ASCII letters, digits and underscore. -/
def isWordChar (c : Char) : Bool := c.isAlphanum || c == '_'

/-- Drop a single leading newline (the `\n?` of regex 2). -/
def dropNl : List Char → List Char
  | [] => []
  | c :: t => if c == nl then t else c :: t

/-- Fueled scan for regex 2: each triple backtick, its trailing word
characters and an optional newline are removed. -/
def stripFenceMarkersF : Nat → List Char → List Char
  | 0, l => l
  | _ + 1, [] => []
  | f + 1, c :: t =>
    if startsTriple (c :: t) then
      stripFenceMarkersF f (dropNl ((t.drop 2).dropWhile isWordChar))
    else c :: stripFenceMarkersF f t

/-- Regex 2 of the cleanup chain. -/
def stripFenceMarkers (l : List Char) : List Char := stripFenceMarkersF l.length l

/-- Regex 3 of the cleanup chain: remove every backtick. -/
def removeBackticks (l : List Char) : List Char := l.filter (fun c => c != bq)

/-- True when the list begins with the block-open marker. -/
def startsOpen : List Char → Bool
  | a :: b :: c :: _ => a == '/' && b == '*' && c == '*'
  | _ => false

/-- After the first open marker, skip whitespace; if a second open marker
follows, return the suffix after it (the doubled-marker case of regex 4). -/
def skipWsOpen (l : List Char) : Option (List Char) :=
  let r := l.dropWhile isWs
  if startsOpen r then some (r.drop 3) else none

/-- Fueled scan for regex 4: a doubled open marker (with interior
whitespace) collapses to a single one; scanning resumes after the match. -/
def collapseDoubleF : Nat → List Char → List Char
  | 0, l => l
  | _ + 1, [] => []
  | f + 1, c :: t =>
    if startsOpen (c :: t) then
      match skipWsOpen (t.drop 2) with
      | some rest => '/' :: '*' :: '*' :: collapseDoubleF f rest
      | none => c :: collapseDoubleF f t
    else c :: collapseDoubleF f t

/-- Regex 4 of the cleanup chain. -/
def collapseDouble (l : List Char) : List Char := collapseDoubleF l.length l

/-- Case-insensitive comparison of a prefix of `l` against `p`. -/
def lowerEq (l p : List Char) : Bool := (l.take p.length).map Char.toLower == p

/-- Regex 5: strip a leading `js` or `javascript` token (case-insensitive)
together with the whitespace after it.  The alternation tries `js` first;
the two branches are disjoint on every input. -/
def stripLangTag (l : List Char) : List Char :=
  if lowerEq l ['j', 's'] then (l.drop 2).dropWhile isWs
  else if lowerEq l ['j', 'a', 'v', 'a', 's', 'c', 'r', 'i', 'p', 't'] then
    (l.drop 10).dropWhile isWs
  else l

/-- Regex 6: `^(?!\s*\/\*\*)` replaced by the open marker.  The negative
lookahead fails exactly when the text is optional whitespace followed by
the open marker; otherwise the marker is prepended at position 0. -/
def ensureOpen (l : List Char) : List Char :=
  if startsOpen (dropWs l) then l else '/' :: '*' :: '*' :: l

/-- True when the reversed text begins with the reversed close marker,
meaning the text ends with the close marker. -/
def startsCloseRev : List Char → Bool
  | a :: b :: _ => a == '/' && b == '*'
  | _ => false

/-- Regex 7: `(?<!\*\/)\s*$` replaced by the close marker.  The leftmost
match of `\s*$` starts right after the last non-whitespace character; when
the lookbehind blocks it (the text already ends with the close marker
before the trailing whitespace), the next match position is one character
later, so exactly one whitespace character survives before the inserted
marker; with no trailing whitespace at all there is then no match. -/
def ensureClose (l : List Char) : List Char :=
  let core := l.reverse.dropWhile isWs
  if startsCloseRev core then
    if core.length = l.length then l
    else l.take (core.length + 1) ++ closeMarker
  else l.take core.length ++ closeMarker

/-- The deterministic cleanup step of `generateDocumentation`
(lines 103-119): trim, then the seven regex replacements in order. -/
def cleanDocumentation (raw : List Char) : List Char :=
  ensureClose (ensureOpen (stripLangTag (collapseDouble (removeBackticks
    (stripFenceMarkers (stripFenced (trimWs raw)))))))

/-! ### The splicer of `processFile` (lines 192-210)

`updatedCode` starts as the original code with the file-level block and two
newlines prepended (when the block is nonempty — JavaScript truthiness of
the string); `offset` starts at `fileDoc.length + 2`.  Each documented
function inserts its block plus one newline at `func.start + offset` and
grows `offset` by `block.length + 1`. -/

/-- JavaScript-style insertion: `l.slice(0, pos) + ins + l.slice(pos)`. -/
def insertAt (pos : Nat) (ins l : List Char) : List Char :=
  l.take pos ++ ins ++ l.drop pos

/-- The splicing loop over `(start, documentation)` pairs. -/
def spliceGo : Nat → List Char → List (Nat × List Char) → List Char
  | _, acc, [] => acc
  | offset, acc, (s, d) :: rest =>
    spliceGo (offset + d.length + 1) (insertAt (s + offset) (d ++ [nl]) acc) rest

/-- Embedding of the splicing step of `processFile`. -/
def spliceDocs (code fileDoc : List Char) (funcs : List (Nat × List Char)) : List Char :=
  if fileDoc.isEmpty then spliceGo 0 code funcs
  else spliceGo (fileDoc.length + 2) (fileDoc ++ nl :: nl :: code) funcs

/-- Monotone, in-bounds span starts: each start is at least the running
lower bound `c` and at most the code length. -/
def okFromB (len : Nat) : Nat → List (Nat × List Char) → Bool
  | _, [] => true
  | c, (s, _) :: rest => decide (c ≤ s) && decide (s ≤ len) && okFromB len s rest

/-- Closed form of the spliced tail from original position `c` on. -/
def assemble (code : List Char) : Nat → List (Nat × List Char) → List Char
  | c, [] => code.drop c
  | c, (s, d) :: rest => (code.drop c).take (s - c) ++ d ++ nl :: assemble code s rest

/-- Cumulative length shift contributed by the blocks before index `i`. -/
def shiftSum (funcs : List (Nat × List Char)) (i : Nat) : Nat :=
  ((funcs.take i).map (fun p => p.2.length + 1)).sum

theorem take_append_len {α : Type} (l₁ l₂ : List α) (k : Nat) :
    (l₁ ++ l₂).take (l₁.length + k) = l₁ ++ l₂.take k := by
  induction l₁ with
  | nil => simp
  | cons a t ih =>
    have h : (a :: t).length + k = (t.length + k) + 1 := by
      simp [List.length_cons]; omega
    rw [List.cons_append, h, List.take_succ_cons, ih, List.cons_append]

theorem drop_append_len {α : Type} (l₁ l₂ : List α) (k : Nat) :
    (l₁ ++ l₂).drop (l₁.length + k) = l₂.drop k := by
  induction l₁ with
  | nil => simp
  | cons a t ih =>
    have h : (a :: t).length + k = (t.length + k) + 1 := by
      simp [List.length_cons]; omega
    rw [List.cons_append, h, List.drop_succ_cons, ih]

theorem spliceGo_eq_assemble (code : List Char) :
    ∀ (funcs : List (Nat × List Char)) (A : List Char) (c : Nat),
      okFromB code.length c funcs = true → c ≤ A.length →
      spliceGo (A.length - c) (A ++ code.drop c) funcs = A ++ assemble code c funcs := by
  intro funcs
  induction funcs with
  | nil => intro A c _ _; simp [spliceGo, assemble]
  | cons hd rest ih =>
    obtain ⟨s, d⟩ := hd
    intro A c hok hc
    simp only [okFromB, Bool.and_eq_true, decide_eq_true_eq] at hok
    obtain ⟨⟨hcs, hsl⟩, hrest⟩ := hok
    have hlenT : ((code.drop c).take (s - c)).length = s - c := by
      simp [List.length_take, List.length_drop]; omega
    have hins : insertAt (s + (A.length - c)) (d ++ [nl]) (A ++ code.drop c)
        = (A ++ ((code.drop c).take (s - c) ++ d ++ [nl])) ++ code.drop s := by
      unfold insertAt
      have hpos : s + (A.length - c) = A.length + (s - c) := by omega
      rw [hpos, take_append_len, drop_append_len, List.drop_drop]
      have h2 : c + (s - c) = s := by omega
      rw [h2]
      simp [List.append_assoc]
    have hA'len : (A ++ ((code.drop c).take (s - c) ++ d ++ [nl])).length
        = A.length + ((s - c) + (d.length + 1)) := by
      simp [List.length_append, hlenT]
    simp only [spliceGo]
    rw [hins]
    have hoff : A.length - c + d.length + 1
        = (A ++ ((code.drop c).take (s - c) ++ d ++ [nl])).length - s := by
      rw [hA'len]; omega
    rw [hoff, ih (A ++ ((code.drop c).take (s - c) ++ d ++ [nl])) s hrest
      (by rw [hA'len]; omega)]
    simp [assemble, List.append_assoc]

theorem okFromB_le_get (len : Nat) :
    ∀ (funcs : List (Nat × List Char)) (c : Nat), okFromB len c funcs = true →
      ∀ (j : Nat) (h : j < funcs.length), c ≤ (funcs.get ⟨j, h⟩).1 := by
  intro funcs
  induction funcs with
  | nil => intro c _ j h; exact absurd h (by simp)
  | cons hd rest ih =>
    obtain ⟨s, d⟩ := hd
    intro c hok j h
    simp only [okFromB, Bool.and_eq_true, decide_eq_true_eq] at hok
    obtain ⟨⟨hcs, _⟩, hrest⟩ := hok
    match j with
    | 0 => exact hcs
    | j + 1 =>
      exact le_trans hcs (ih s hrest j (by simpa using h))

theorem assemble_block (code : List Char) :
    ∀ (funcs : List (Nat × List Char)) (c : Nat), okFromB code.length c funcs = true →
      ∀ (i : Nat) (h : i < funcs.length),
        ((assemble code c funcs).drop ((funcs.get ⟨i, h⟩).1 - c + shiftSum funcs i)).take
            ((funcs.get ⟨i, h⟩).2.length + 1)
          = (funcs.get ⟨i, h⟩).2 ++ [nl] := by
  intro funcs
  induction funcs with
  | nil => intro c _ i h; exact absurd h (by simp)
  | cons hd rest ih =>
    obtain ⟨s, d⟩ := hd
    intro c hok i h
    simp only [okFromB, Bool.and_eq_true, decide_eq_true_eq] at hok
    obtain ⟨⟨hcs, hsl⟩, hrest⟩ := hok
    have hlenT : ((code.drop c).take (s - c)).length = s - c := by
      simp [List.length_take, List.length_drop]; omega
    have hregroup : assemble code c ((s, d) :: rest)
        = ((code.drop c).take (s - c) ++ (d ++ [nl])) ++ assemble code s rest := by
      simp [assemble, List.append_assoc]
    have hprelen : ((code.drop c).take (s - c) ++ (d ++ [nl])).length
        = (s - c) + (d.length + 1) := by
      simp only [List.length_append, List.length_cons, List.length_nil, hlenT]
    match i with
    | 0 =>
      have hshift : shiftSum ((s, d) :: rest) 0 = 0 := by simp [shiftSum]
      have hregroup2 : assemble code c ((s, d) :: rest)
          = (code.drop c).take (s - c) ++ ((d ++ [nl]) ++ assemble code s rest) := by
        simp [assemble, List.append_assoc]
      simp only [List.get, hshift, Nat.add_zero, hregroup2]
      have hdrop : ((code.drop c).take (s - c)
            ++ ((d ++ [nl]) ++ assemble code s rest)).drop (s - c)
          = (d ++ [nl]) ++ assemble code s rest := by
        have h0 := drop_append_len ((code.drop c).take (s - c))
          ((d ++ [nl]) ++ assemble code s rest) 0
        rw [hlenT, Nat.add_zero, List.drop_zero] at h0
        exact h0
      rw [hdrop]
      have htake : ((d ++ [nl]) ++ assemble code s rest).take (d.length + 1)
          = d ++ [nl] := by
        have h0 := take_append_len (d ++ [nl]) (assemble code s rest) 0
        rw [show (d ++ [nl]).length = d.length + 1 from by simp, Nat.add_zero,
          List.take_zero, List.append_nil] at h0
        exact h0
      rw [htake]
    | i + 1 =>
      have hsle : s ≤ (rest.get ⟨i, by simpa using h⟩).1 :=
        okFromB_le_get code.length rest s hrest i (by simpa using h)
      have hget : (((s, d) :: rest).get ⟨i + 1, h⟩) = rest.get ⟨i, by simpa using h⟩ := by
        simp [List.get]
      have hshift : shiftSum ((s, d) :: rest) (i + 1) = (d.length + 1) + shiftSum rest i := by
        simp [shiftSum, List.take_succ_cons, List.sum_cons]
      rw [hget, hshift, hregroup]
      have hpos : (rest.get ⟨i, by simpa using h⟩).1 - c + ((d.length + 1) + shiftSum rest i)
          = ((code.drop c).take (s - c) ++ (d ++ [nl])).length
            + ((rest.get ⟨i, by simpa using h⟩).1 - s + shiftSum rest i) := by
        rw [hprelen]; omega
      rw [hpos, drop_append_len]
      exact ih s hrest i (by simpa using h)

/-- C1: with a nonempty file-level block `F` and span starts in monotone
order within bounds, the splice of `processFile` puts `F` plus two
newlines at the front, and block `i` (followed by its inserted newline)
appears beginning exactly at position
`start_i + F.length + 2 + sum of (len_j + 1) for j < i`. -/
theorem c1_splice_positions (code fileDoc : List Char) (funcs : List (Nat × List Char))
    (hF : fileDoc ≠ []) (hok : okFromB code.length 0 funcs = true) :
    (spliceDocs code fileDoc funcs).take (fileDoc.length + 2) = fileDoc ++ [nl, nl] ∧
    ∀ (i : Nat) (h : i < funcs.length),
      ((spliceDocs code fileDoc funcs).drop
          ((funcs.get ⟨i, h⟩).1 + (fileDoc.length + 2) + shiftSum funcs i)).take
          ((funcs.get ⟨i, h⟩).2.length + 1)
        = (funcs.get ⟨i, h⟩).2 ++ [nl] := by
  have hA : (fileDoc ++ [nl, nl]).length = fileDoc.length + 2 := by
    simp [List.length_append]
  have hmain : spliceDocs code fileDoc funcs
      = (fileDoc ++ [nl, nl]) ++ assemble code 0 funcs := by
    unfold spliceDocs
    rw [if_neg (by simpa [List.isEmpty_iff] using hF)]
    have h := spliceGo_eq_assemble code funcs (fileDoc ++ [nl, nl]) 0 hok (by omega)
    rw [hA] at h
    simpa [List.append_assoc] using h
  constructor
  · rw [hmain]
    have h0 := take_append_len (fileDoc ++ [nl, nl]) (assemble code 0 funcs) 0
    rw [hA, Nat.add_zero, List.take_zero, List.append_nil] at h0
    exact h0
  · intro i h
    rw [hmain]
    have hpos : (funcs.get ⟨i, h⟩).1 + (fileDoc.length + 2) + shiftSum funcs i
        = (fileDoc ++ [nl, nl]).length + ((funcs.get ⟨i, h⟩).1 - 0 + shiftSum funcs i) := by
      rw [hA]; omega
    rw [hpos, drop_append_len]
    exact assemble_block code funcs 0 hok i h

/-- Witness for C1: the synthetic three-block file of spec section 8, with
block lengths 6 and original starts 2, 5, 9; block 1 appears at
position 5 + 6 + 2 + 7 = 20 followed by its newline. -/
theorem c1_splice_positions_witness :
    ("/**F*/".toList ≠ ([] : List Char)) ∧
    okFromB ("0123456789".toList).length 0
      [(2, "/**A*/".toList), (5, "/**B*/".toList), (9, "/**C*/".toList)] = true ∧
    ((spliceDocs "0123456789".toList "/**F*/".toList
        [(2, "/**A*/".toList), (5, "/**B*/".toList), (9, "/**C*/".toList)]).drop 20).take 7
      = "/**B*/\n".toList := by
  refine ⟨by decide, by decide, ?_⟩
  have h := (c1_splice_positions "0123456789".toList "/**F*/".toList
    [(2, "/**A*/".toList), (5, "/**B*/".toList), (9, "/**C*/".toList)]
    (by decide) (by decide)).2 1 (by decide)
  revert h
  decide

/-! ### The retry loop of `generateDocumentation` (lines 83-135)

The external request (`openai.chat.completions.create`) is a stub mapping
the zero-based attempt index to either a raw response text or a failure
message.  The loop runs the attempt index `i` from `0` to
`maxRetries - 1`: a structurally successful response is cleaned and, if it
validates, returned; a request failure on the last iteration throws an
error carrying the attempt count (`config.maxRetries`) and the underlying
message, otherwise the loop (after a backoff delay, irrelevant to the
value computed) retries.  Falling out of the loop throws the bare
`Failed to generate documentation` error.  `genGo` carries the remaining
iteration count `r = maxRetries - i` (so `i = maxRetries - 1` is `r = 1`)
together with the number of stub invocations made so far. -/

/-- Outcomes of a failed generation. -/
inductive GenErr where
  | failedAfter (attempts : Nat) (cause : List Char)
  | noValidResult
deriving DecidableEq

/-- The retry loop; the second component counts stub invocations. -/
def genGo (stub : Nat → Except (List Char) (List Char)) (maxRetries : Nat) :
    Nat → Nat → Nat → Except GenErr (List Char) × Nat
  | 0, _, calls => (Except.error GenErr.noValidResult, calls)
  | r + 1, i, calls =>
    match stub i with
    | Except.ok raw =>
      if validateDocumentation (cleanDocumentation raw) then
        (Except.ok (cleanDocumentation raw), calls + 1)
      else genGo stub maxRetries r (i + 1) (calls + 1)
    | Except.error msg =>
      if r = 0 then (Except.error (GenErr.failedAfter maxRetries msg), calls + 1)
      else genGo stub maxRetries r (i + 1) (calls + 1)

/-- Embedding of `generateDocumentation`: run the loop from attempt 0. -/
def generateDocumentation (stub : Nat → Except (List Char) (List Char))
    (maxRetries : Nat) : Except GenErr (List Char) × Nat :=
  genGo stub maxRetries maxRetries 0 0

theorem genGo_succ_ok (stub : Nat → Except (List Char) (List Char))
    (m r i calls : Nat) (raw : List Char) (h : stub i = Except.ok raw) :
    genGo stub m (r + 1) i calls
      = if validateDocumentation (cleanDocumentation raw) then
          (Except.ok (cleanDocumentation raw), calls + 1)
        else genGo stub m r (i + 1) (calls + 1) := by
  simp only [genGo, h]

theorem genGo_succ_err (stub : Nat → Except (List Char) (List Char))
    (m r i calls : Nat) (msg : List Char) (h : stub i = Except.error msg) :
    genGo stub m (r + 1) i calls
      = if r = 0 then (Except.error (GenErr.failedAfter m msg), calls + 1)
        else genGo stub m r (i + 1) (calls + 1) := by
  simp only [genGo, h]

theorem genGo_calls_le (stub : Nat → Except (List Char) (List Char)) (m : Nat) :
    ∀ (r i calls : Nat), (genGo stub m r i calls).2 ≤ calls + r := by
  intro r
  induction r with
  | zero => intro i calls; simp [genGo]
  | succ r ih =>
    intro i calls
    cases hstub : stub i with
    | ok raw =>
      rw [genGo_succ_ok stub m r i calls raw hstub]
      by_cases hv : validateDocumentation (cleanDocumentation raw) = true
      · rw [if_pos hv]
        show calls + 1 ≤ calls + (r + 1)
        omega
      · rw [if_neg hv]
        exact le_trans (ih (i + 1) (calls + 1)) (by omega)
    | error msg =>
      rw [genGo_succ_err stub m r i calls msg hstub]
      by_cases hr : r = 0
      · rw [if_pos hr]
        show calls + 1 ≤ calls + (r + 1)
        omega
      · rw [if_neg hr]
        exact le_trans (ih (i + 1) (calls + 1)) (by omega)

/-- C3: the retry loop issues the stub at most `maxRetries` times; a stub
failing twice then succeeding with `maxRetries = 3` yields the cleaned
success after exactly 3 invocations; an always-failing stub with
`maxRetries = 2` fails after exactly 2 invocations with an error carrying
the attempt count and the underlying message. -/
theorem c3_generate_retries :
    (∀ (stub : Nat → Except (List Char) (List Char)) (maxRetries : Nat),
      (generateDocumentation stub maxRetries).2 ≤ maxRetries) ∧
    generateDocumentation
        (fun i => if i < 2 then Except.error "boom".toList else Except.ok "/** ok */".toList) 3
      = (Except.ok "/** ok */".toList, 3) ∧
    generateDocumentation (fun _ => Except.error "down".toList) 2
      = (Except.error (GenErr.failedAfter 2 "down".toList), 2) :=
  ⟨fun stub m => by simpa using genGo_calls_le stub m m 0 0, by rfl, by rfl⟩

/-- C4: `validateDocumentation` is true exactly when the trimmed text
starts with the three-character open marker and ends with the
two-character close marker; in particular it accepts a well-formed block
and rejects the three malformed examples of the spec. -/
theorem c4_validate_documentation :
    (∀ documentation : List Char,
      validateDocumentation documentation = true ↔
        (openMarker.isPrefixOf (trimWs documentation) = true ∧
          closeMarker.isSuffixOf (trimWs documentation) = true)) ∧
    validateDocumentation "/** a */".toList = true ∧
    validateDocumentation "a */".toList = false ∧
    validateDocumentation "/** a".toList = false ∧
    validateDocumentation "".toList = false := by
  refine ⟨?_, by decide, by decide, by decide, by decide⟩
  intro documentation
  by_cases h1 : openMarker.isPrefixOf (trimWs documentation) = true
  · by_cases h2 : closeMarker.isSuffixOf (trimWs documentation) = true
    · simp [validateDocumentation, h1, h2]
    · simp [validateDocumentation, h1, h2]
  · simp [validateDocumentation, h1]

/-! ### Structure of the cleaned text

The last two cleanup stages force the shape `whitespace ++ "/**" ++ tail`
with the close marker as a suffix; that shape is exactly what the
validator accepts after trimming. -/

theorem startsOpen_shape (m : List Char) (h : startsOpen m = true) :
    ∃ t, m = '/' :: '*' :: '*' :: t := by
  rcases m with _ | ⟨a, m⟩
  · simp [startsOpen] at h
  rcases m with _ | ⟨b, m⟩
  · simp [startsOpen] at h
  rcases m with _ | ⟨c, t⟩
  · simp [startsOpen] at h
  simp only [startsOpen, Bool.and_eq_true, beq_iff_eq] at h
  obtain ⟨⟨ha, hb⟩, hc⟩ := h
  exact ⟨t, by rw [ha, hb, hc]⟩

theorem ensureOpen_shape (x : List Char) :
    ∃ w m, ensureOpen x = w ++ '/' :: '*' :: '*' :: m ∧ ∀ c ∈ w, isWs c = true := by
  unfold ensureOpen
  by_cases h : startsOpen (dropWs x) = true
  · rw [if_pos h]
    obtain ⟨t, ht⟩ := startsOpen_shape _ h
    refine ⟨x.takeWhile isWs, t, ?_, fun c hc => List.mem_takeWhile_imp hc⟩
    rw [← ht]
    exact (List.takeWhile_append_dropWhile isWs x).symm
  · rw [if_neg h]
    exact ⟨[], x, rfl, by simp⟩

theorem takeWhile_len_le_of_mid (p : Char → Bool) (x : Char) (hx : p x = false) :
    ∀ (a b : List Char), ((a ++ x :: b).takeWhile p).length ≤ a.length := by
  intro a
  induction a with
  | nil => intro b; simp [List.takeWhile_cons, hx]
  | cons c t ih =>
    intro b
    by_cases hpc : p c = true
    · simp only [List.cons_append, List.takeWhile_cons, hpc, if_true, List.length_cons]
      exact Nat.succ_le_succ (ih b)
    · simp [List.cons_append, List.takeWhile_cons, hpc]

theorem dropWhile_of_length_eq (p : Char → Bool) :
    ∀ (m : List Char), (m.dropWhile p).length = m.length → m.dropWhile p = m := by
  intro m
  induction m with
  | nil => intro _; rfl
  | cons a t ih =>
    intro h
    cases hpa : p a with
    | false => simp [List.dropWhile_cons, hpa]
    | true =>
      exfalso
      rw [List.dropWhile_cons, if_pos hpa] at h
      have hle : (t.dropWhile p).length ≤ t.length := (List.dropWhile_sublist p).length_le
      simp [List.length_cons] at h
      omega

theorem isSuffixOf_close_append (X : List Char) :
    closeMarker.isSuffixOf (X ++ closeMarker) = true := by
  simp only [List.isSuffixOf_iff_suffix]
  exact List.suffix_append X closeMarker

theorem take_branch_shape (w m : List Char) (k : Nat) (hk : w.length + 3 ≤ k) :
    ∃ m2, (w ++ '/' :: '*' :: '*' :: m).take k ++ closeMarker
        = w ++ '/' :: '*' :: '*' :: m2 := by
  refine ⟨m.take (k - w.length - 3) ++ closeMarker, ?_⟩
  have hsplit : '/' :: '*' :: '*' :: m = (['/', '*', '*'] : List Char) ++ m := rfl
  have hk3 : k = w.length + ((['/', '*', '*'] : List Char).length + (k - w.length - 3)) := by
    simp only [List.length_cons, List.length_nil]
    omega
  rw [hsplit, hk3, take_append_len]
  have hmid : ((['/', '*', '*'] : List Char) ++ m).take
      ((['/', '*', '*'] : List Char).length + (k - w.length - 3))
      = ['/', '*', '*'] ++ m.take (k - w.length - 3) := take_append_len _ _ _
  rw [hmid]
  simp [List.append_assoc]

theorem startsCloseRev_shape (m : List Char) (h : startsCloseRev m = true) :
    ∃ t, m = '/' :: '*' :: t := by
  rcases m with _ | ⟨a, m⟩
  · simp [startsCloseRev] at h
  rcases m with _ | ⟨b, t⟩
  · simp [startsCloseRev] at h
  simp only [startsCloseRev, Bool.and_eq_true, beq_iff_eq] at h
  obtain ⟨ha, hb⟩ := h
  exact ⟨t, by rw [ha, hb]⟩

theorem ensureClose_struct (w m : List Char) :
    ∃ m2, ensureClose (w ++ '/' :: '*' :: '*' :: m) = w ++ '/' :: '*' :: '*' :: m2 ∧
      closeMarker.isSuffixOf (ensureClose (w ++ '/' :: '*' :: '*' :: m)) = true := by
  set y := w ++ '/' :: '*' :: '*' :: m with hy
  have hyrev : y.reverse = m.reverse ++ '*' :: '*' :: '/' :: w.reverse := by
    rw [hy]
    simp [List.reverse_append, List.reverse_cons, List.append_assoc]
  have htw : (y.reverse.takeWhile isWs).length ≤ m.length := by
    rw [hyrev]
    have h0 := takeWhile_len_le_of_mid isWs '*' (by decide) m.reverse ('*' :: '/' :: w.reverse)
    simpa using h0
  have hylen : y.length = w.length + 3 + m.length := by
    rw [hy]; simp [List.length_append]; omega
  have hsplitlen : (y.reverse.takeWhile isWs).length + (y.reverse.dropWhile isWs).length
      = y.length := by
    rw [← List.length_append, List.takeWhile_append_dropWhile, List.length_reverse]
  have hcore : w.length + 3 ≤ (y.reverse.dropWhile isWs).length := by omega
  have hEC : ensureClose y
      = (if startsCloseRev (y.reverse.dropWhile isWs) then
          if (y.reverse.dropWhile isWs).length = y.length then y
          else y.take ((y.reverse.dropWhile isWs).length + 1) ++ closeMarker
        else y.take (y.reverse.dropWhile isWs).length ++ closeMarker) := rfl
  by_cases hsc : startsCloseRev (y.reverse.dropWhile isWs) = true
  · by_cases hlen : (y.reverse.dropWhile isWs).length = y.length
    · rw [hEC, if_pos hsc, if_pos hlen]
      obtain ⟨t_core, heq⟩ := startsCloseRev_shape _ hsc
      have hrev : y.reverse = '/' :: '*' :: t_core := by
        have h1 : (y.reverse.dropWhile isWs).length = y.reverse.length := by
          rw [hlen, List.length_reverse]
        rw [← dropWhile_of_length_eq isWs y.reverse h1, heq]
      have hyshape : y = t_core.reverse ++ closeMarker := by
        have h2 := congrArg List.reverse hrev
        rw [List.reverse_reverse] at h2
        rw [h2]
        simp [closeMarker]
      refine ⟨m, rfl, ?_⟩
      rw [hyshape]
      exact isSuffixOf_close_append _
    · rw [hEC, if_pos hsc, if_neg hlen]
      obtain ⟨m2, hm2⟩ := take_branch_shape w m ((y.reverse.dropWhile isWs).length + 1)
        (by omega)
      rw [← hy] at hm2
      exact ⟨m2, hm2, isSuffixOf_close_append _⟩
  · rw [hEC, if_neg hsc]
    obtain ⟨m2, hm2⟩ := take_branch_shape w m ((y.reverse.dropWhile isWs).length) hcore
    rw [← hy] at hm2
    exact ⟨m2, hm2, isSuffixOf_close_append _⟩

theorem dropWs_ws_append (w : List Char) (hw : ∀ c ∈ w, isWs c = true) (x : Char)
    (hx : isWs x = false) (r : List Char) : dropWs (w ++ x :: r) = x :: r := by
  induction w with
  | nil => simp [dropWs, List.dropWhile_cons, hx]
  | cons a t ih =>
    have ha : isWs a = true := hw a (by simp)
    have ih2 := ih (fun c hc => hw c (by simp [hc]))
    simp only [dropWs, List.cons_append, List.dropWhile_cons, ha, if_true] at ih2 ⊢
    exact ih2

theorem validate_of_shape (w m2 : List Char) (hw : ∀ c ∈ w, isWs c = true)
    (hsuf : closeMarker.isSuffixOf (w ++ '/' :: '*' :: '*' :: m2) = true) :
    validateDocumentation (w ++ '/' :: '*' :: '*' :: m2) = true := by
  have hdz : dropWs (w ++ '/' :: '*' :: '*' :: m2) = '/' :: '*' :: '*' :: m2 :=
    dropWs_ws_append w hw '/' (by decide) ('*' :: '*' :: m2)
  have hsufP : closeMarker <:+ (w ++ '/' :: '*' :: '*' :: m2) :=
    (List.isSuffixOf_iff_suffix).mp hsuf
  have hsufD : ('/' :: '*' :: '*' :: m2 : List Char) <:+ (w ++ '/' :: '*' :: '*' :: m2) :=
    ⟨w, rfl⟩
  have h2 : closeMarker <:+ ('/' :: '*' :: '*' :: m2 : List Char) := by
    rw [← List.reverse_prefix] at hsufP hsufD ⊢
    refine List.prefix_of_prefix_length_le hsufP hsufD ?_
    simp [closeMarker]
  obtain ⟨q, hq⟩ := h2
  have hrevshape : ('/' :: '*' :: '*' :: m2 : List Char).reverse = '/' :: '*' :: q.reverse := by
    rw [← hq, List.reverse_append]
    rfl
  have htrim : trimWs (w ++ '/' :: '*' :: '*' :: m2) = '/' :: '*' :: '*' :: m2 := by
    unfold trimWs
    rw [hdz, hrevshape]
    rw [show ('/' :: '*' :: q.reverse : List Char).dropWhile isWs
        = '/' :: '*' :: q.reverse from rfl]
    rw [← hrevshape, List.reverse_reverse]
  have hpre : openMarker.isPrefixOf (trimWs (w ++ '/' :: '*' :: '*' :: m2)) = true := by
    rw [htrim]
    simp [openMarker, List.isPrefixOf]
  have hsufT : closeMarker.isSuffixOf (trimWs (w ++ '/' :: '*' :: '*' :: m2)) = true := by
    rw [htrim, ← hq]
    exact isSuffixOf_close_append q
  simp [validateDocumentation, hpre, hsufT]

/-- Shape of every cleaned text: optional whitespace, the open marker, a
tail, with the close marker as a suffix of the whole. -/
theorem clean_shape (raw : List Char) :
    ∃ w m2, cleanDocumentation raw = w ++ '/' :: '*' :: '*' :: m2 ∧
      (∀ c ∈ w, isWs c = true) ∧
      closeMarker.isSuffixOf (cleanDocumentation raw) = true := by
  unfold cleanDocumentation
  obtain ⟨w, m, hshape, hw⟩ := ensureOpen_shape (stripLangTag (collapseDouble (removeBackticks
    (stripFenceMarkers (stripFenced (trimWs raw))))))
  rw [hshape]
  obtain ⟨m2, hm2, hsuf⟩ := ensureClose_struct w m
  rw [hm2] at hsuf ⊢
  exact ⟨w, m2, rfl, hw, hsuf⟩

theorem clean_validates (raw : List Char) :
    validateDocumentation (cleanDocumentation raw) = true := by
  obtain ⟨w, m2, hshape, hw, hsuf⟩ := clean_shape raw
  rw [hshape] at hsuf ⊢
  exact validate_of_shape w m2 hw hsuf

/-! ### Backtick elimination -/

theorem mem_removeBackticks (u : List Char) : bq ∉ removeBackticks u := by
  intro hmem
  simp [removeBackticks, List.mem_filter] at hmem

theorem skipWsOpen_sublist (x rest : List Char) (h : skipWsOpen x = some rest) :
    rest.Sublist x := by
  simp only [skipWsOpen] at h
  split at h
  · have hr : rest = (x.dropWhile isWs).drop 3 := (Option.some.inj h).symm
    rw [hr]
    exact (List.drop_sublist 3 _).trans (List.dropWhile_sublist isWs)
  · exact absurd h (by simp)

theorem collapseDoubleF_no_bq :
    ∀ (f : Nat) (l : List Char), bq ∉ l → bq ∉ collapseDoubleF f l := by
  intro f
  induction f with
  | zero => intro l h; simpa [collapseDoubleF] using h
  | succ f ih =>
    intro l h
    match l with
    | [] => simp [collapseDoubleF]
    | c :: t =>
      have hc : bq ≠ c := fun hce => h (by rw [hce]; simp)
      have ht : bq ∉ t := fun hmt => h (by simp [hmt])
      simp only [collapseDoubleF]
      by_cases hso : startsOpen (c :: t) = true
      · rw [if_pos hso]
        cases hsk : skipWsOpen (t.drop 2) with
        | some rest =>
          have hrest : bq ∉ rest := fun hmr =>
            ht (((skipWsOpen_sublist _ _ hsk).trans (List.drop_sublist 2 t)).mem hmr)
          intro hmem
          simp only [List.mem_cons] at hmem
          rcases hmem with h1 | h1 | h1 | h1
          · exact absurd h1 (by decide)
          · exact absurd h1 (by decide)
          · exact absurd h1 (by decide)
          · exact ih rest hrest h1
        | none =>
          intro hmem
          simp only [List.mem_cons] at hmem
          rcases hmem with h1 | h1
          · exact hc h1
          · exact ih t ht h1
      · rw [if_neg hso]
        intro hmem
        simp only [List.mem_cons] at hmem
        rcases hmem with h1 | h1
        · exact hc h1
        · exact ih t ht h1

theorem stripLangTag_sublist (l : List Char) : (stripLangTag l).Sublist l := by
  unfold stripLangTag
  by_cases h1 : lowerEq l ['j', 's'] = true
  · rw [if_pos h1]
    exact (List.dropWhile_sublist isWs).trans (List.drop_sublist 2 l)
  · rw [if_neg h1]
    by_cases h2 : lowerEq l ['j', 'a', 'v', 'a', 's', 'c', 'r', 'i', 'p', 't'] = true
    · rw [if_pos h2]
      exact (List.dropWhile_sublist isWs).trans (List.drop_sublist 10 l)
    · rw [if_neg h2]

theorem ensureOpen_no_bq (l : List Char) (h : bq ∉ l) : bq ∉ ensureOpen l := by
  unfold ensureOpen
  by_cases hs : startsOpen (dropWs l) = true
  · rw [if_pos hs]; exact h
  · rw [if_neg hs]
    intro hmem
    simp only [List.mem_cons] at hmem
    rcases hmem with h1 | h1 | h1 | h1
    · exact absurd h1 (by decide)
    · exact absurd h1 (by decide)
    · exact absurd h1 (by decide)
    · exact h h1

theorem ensureClose_no_bq (l : List Char) (h : bq ∉ l) : bq ∉ ensureClose l := by
  have htake : ∀ (k : Nat), bq ∉ l.take k ++ closeMarker := by
    intro k hmem
    rcases List.mem_append.mp hmem with h1 | h1
    · exact h ((List.take_sublist k l).mem h1)
    · revert h1; decide
  unfold ensureClose
  by_cases hsc : startsCloseRev (l.reverse.dropWhile isWs) = true
  · by_cases hlen : (l.reverse.dropWhile isWs).length = l.length
    · rw [if_pos hsc, if_pos hlen]
      exact h
    · rw [if_pos hsc, if_neg hlen]
      exact htake _
  · rw [if_neg hsc]
    exact htake _

/-- No backtick survives the cleanup chain. -/
theorem clean_no_bq (raw : List Char) : bq ∉ cleanDocumentation raw := by
  have h1 : bq ∉ collapseDouble (removeBackticks
      (stripFenceMarkers (stripFenced (trimWs raw)))) :=
    collapseDoubleF_no_bq _ _ (mem_removeBackticks _)
  have h2 : bq ∉ stripLangTag (collapseDouble (removeBackticks
      (stripFenceMarkers (stripFenced (trimWs raw))))) :=
    fun hm => h1 ((stripLangTag_sublist _).mem hm)
  exact ensureClose_no_bq _ (ensureOpen_no_bq _ h2)

theorem genGo_ne_noValid (stub : Nat → Except (List Char) (List Char)) (m : Nat) :
    ∀ (r : Nat), 1 ≤ r → ∀ (i calls : Nat),
      (genGo stub m r i calls).1 ≠ Except.error GenErr.noValidResult := by
  intro r
  induction r with
  | zero => intro h; exact absurd h (by omega)
  | succ r ih =>
    intro _ i calls
    cases hstub : stub i with
    | ok raw =>
      rw [genGo_succ_ok stub m r i calls raw hstub, if_pos (clean_validates raw)]
      simp
    | error msg =>
      rw [genGo_succ_err stub m r i calls msg hstub]
      by_cases hr : r = 0
      · rw [if_pos hr]; simp
      · rw [if_neg hr]
        exact ih (by omega) (i + 1) (calls + 1)

/-- C10: every cleaned response passes `validateDocumentation`, so inside
`generateDocumentation` the validation-failure retry branch never fires
and the trailing no-valid-result throw is unreachable (for the positive
retry counts the configuration produces); an attempt whose request
succeeds returns the cleaned text at once, so retries are consumed only
by request failures. -/
theorem c10_validation_retry_unreachable :
    (∀ raw : List Char, validateDocumentation (cleanDocumentation raw) = true) ∧
    (∀ (stub : Nat → Except (List Char) (List Char)) (maxRetries : Nat), 1 ≤ maxRetries →
      (generateDocumentation stub maxRetries).1 ≠ Except.error GenErr.noValidResult) ∧
    (∀ (stub : Nat → Except (List Char) (List Char)) (m r i calls : Nat) (raw : List Char),
      stub i = Except.ok raw →
      genGo stub m (r + 1) i calls = (Except.ok (cleanDocumentation raw), calls + 1)) := by
  refine ⟨clean_validates, ?_, ?_⟩
  · intro stub maxRetries h
    have h0 := genGo_ne_noValid stub maxRetries maxRetries h 0 0
    simpa [generateDocumentation] using h0
  · intro stub m r i calls raw hstub
    rw [genGo_succ_ok stub m r i calls raw hstub, if_pos (clean_validates raw)]

/-- Constant successful stub used by the C10 witness. -/
def stubOkX : Nat → Except (List Char) (List Char) := fun _ => Except.ok "x".toList

/-- Witness for C10 at a concrete stub and retry count. -/
theorem c10_validation_retry_unreachable_witness :
    (1 ≤ 1) ∧
    (generateDocumentation stubOkX 1).1 ≠ Except.error GenErr.noValidResult ∧
    genGo stubOkX 1 1 0 0 = (Except.ok (cleanDocumentation "x".toList), 1) :=
  ⟨by decide, c10_validation_retry_unreachable.2.1 stubOkX 1 (by decide),
    c10_validation_retry_unreachable.2.2 stubOkX 1 0 0 0 "x".toList rfl⟩

/-- C5 counterexample: for the raw response with an unclosed fence
followed by a space, the fence-marker stripping exposes a leading space
that the open-marker stage then accepts (its lookahead allows leading
whitespace), so the cleaned text does not begin with the open marker. -/
theorem c5_cleanup_counterexample :
    cleanDocumentation "``` /** hi */".toList = " /** hi */".toList ∧
    openMarker.isPrefixOf (cleanDocumentation "``` /** hi */".toList) = false :=
  ⟨by decide, by decide⟩

/-- C5 (amended): every cleaned response contains no backtick, ends with
the close marker, and begins with the open marker after any leading
whitespace (the code does not force the marker to position 0 when earlier
stripping leaves leading whitespace); in particular the fenced input with
a language tag cleans to a backtick-free text starting with the open
marker. -/
theorem c5_cleanup_amended :
    (∀ raw : List Char,
      bq ∉ cleanDocumentation raw ∧
      openMarker.isPrefixOf (dropWs (cleanDocumentation raw)) = true ∧
      closeMarker.isSuffixOf (cleanDocumentation raw) = true) ∧
    (cleanDocumentation "```js\n/** a */\n```".toList = "/***/".toList ∧
      bq ∉ cleanDocumentation "```js\n/** a */\n```".toList ∧
      openMarker.isPrefixOf (cleanDocumentation "```js\n/** a */\n```".toList) = true) := by
  constructor
  · intro raw
    obtain ⟨w, m2, hshape, hw, hsuf⟩ := clean_shape raw
    refine ⟨clean_no_bq raw, ?_, hsuf⟩
    rw [hshape, dropWs_ws_append w hw '/' (by decide) _]
    simp [openMarker, List.isPrefixOf]
  · exact ⟨by decide, by decide, by decide⟩

/-! ### The span extractor `extractFunctions` (lines 28-81)

The Babel parser is the spec's black box: it turns source text into a
tree of typed nodes carrying byte offsets.  The tree is modelled by
`Node`/`Forest`; a parse that succeeded on a given text is modelled by the
well-formedness predicate `nodeWf 0 len`: every node's range sits inside
its parent's range (with `start ≤ stop`), and each sibling starts no
earlier than the previous sibling ends.  Babel's `traverse` visits nodes
in source pre-order (a node before its children, children left to right),
which the collector mirrors; `path.parent` is mirrored by threading the
parent's kind and name.  The four collected constructs match the source:
named function declarations (own `id.name`), arrow functions whose parent
is a variable declarator (parent's `id.name`), class methods and object
methods (own `key.name`). -/

inductive NodeKind where
  | functionDeclaration
  | arrowFunctionExpression
  | variableDeclarator
  | classMethod
  | objectMethod
  | other
deriving DecidableEq

mutual
inductive Node where
  | mk (kind : NodeKind) (name : Option (List Char)) (start stop : Nat) (children : Forest)
inductive Forest where
  | nil
  | cons (n : Node) (rest : Forest)
end

/-- Start offset of a node. -/
def Node.start : Node → Nat
  | .mk _ _ s _ _ => s

/-- End offset of a node (`stop`, since `end` is reserved). -/
def Node.stop : Node → Nat
  | .mk _ _ _ e _ => e

/-- JavaScript `code.slice(start, end)`. -/
def sliceStr (code : List Char) (s e : Nat) : List Char := (code.drop s).take (e - s)

/-- A collected span: name, source slice, and original byte range. -/
structure FnSpan where
  name : Option (List Char)
  code : List Char
  start : Nat
  stop : Nat
deriving DecidableEq

mutual
/-- Pre-order collection over one node, given the parent's kind and name. -/
def collectNode (src : List Char) (pk : NodeKind) (pn : Option (List Char)) :
    Node → List FnSpan
  | .mk k nm s e cs =>
    (match k with
      | .functionDeclaration => [⟨nm, sliceStr src s e, s, e⟩]
      | .arrowFunctionExpression =>
        if pk = NodeKind.variableDeclarator then [⟨pn, sliceStr src s e, s, e⟩] else []
      | .classMethod => [⟨nm, sliceStr src s e, s, e⟩]
      | .objectMethod => [⟨nm, sliceStr src s e, s, e⟩]
      | _ => []) ++ collectForest src k nm cs
/-- Pre-order collection over a list of children. -/
def collectForest (src : List Char) (pk : NodeKind) (pn : Option (List Char)) :
    Forest → List FnSpan
  | .nil => []
  | .cons n rest => collectNode src pk pn n ++ collectForest src pk pn rest
end

/-- Embedding of `extractFunctions`: traverse the parsed tree from the
root (whose parent is no relevant construct). -/
def extractFunctions (src : List Char) (ast : Node) : List FnSpan :=
  collectNode src NodeKind.other none ast

mutual
/-- Well-formedness of a parsed node within the range `[lo, hi]`. -/
def nodeWf (lo hi : Nat) : Node → Bool
  | .mk _ _ s e cs =>
    decide (lo ≤ s) && decide (s ≤ e) && decide (e ≤ hi) && forestWf s e cs
/-- Well-formedness of siblings: each starts no earlier than the previous
one ends, all within `[lo, hi]`. -/
def forestWf (lo hi : Nat) : Forest → Bool
  | .nil => true
  | .cons n rest => nodeWf lo hi n && forestWf n.stop hi rest
end

theorem nodeWf_fields (lo hi : Nat) (n : Node) (h : nodeWf lo hi n = true) :
    lo ≤ n.start ∧ n.start ≤ n.stop ∧ n.stop ≤ hi := by
  cases n with
  | mk k nm s e cs =>
    simp only [nodeWf, Bool.and_eq_true, decide_eq_true_eq] at h
    exact ⟨h.1.1.1, h.1.1.2, h.1.2⟩

theorem nodeWf_self (lo hi : Nat) (n : Node) (h : nodeWf lo hi n = true) :
    nodeWf n.start n.stop n = true := by
  cases n with
  | mk k nm s e cs =>
    simp only [nodeWf, Bool.and_eq_true, decide_eq_true_eq, Node.start, Node.stop] at h ⊢
    exact ⟨⟨⟨le_refl s, h.1.1.2⟩, le_refl e⟩, h.2⟩

mutual

theorem collectNode_bounds (src : List Char) :
    ∀ (n : Node) (pk : NodeKind) (pn : Option (List Char)) (lo hi : Nat),
      nodeWf lo hi n = true →
      ∀ sp ∈ collectNode src pk pn n,
        lo ≤ sp.start ∧ sp.start ≤ sp.stop ∧ sp.stop ≤ hi
  | Node.mk k nm s e cs => by
    intro pk pn lo hi hwf sp hsp
    simp only [nodeWf, Bool.and_eq_true, decide_eq_true_eq] at hwf
    obtain ⟨⟨⟨h1, h2⟩, h3⟩, hcs⟩ := hwf
    simp only [collectNode] at hsp
    rcases List.mem_append.mp hsp with hm | hm
    · cases k <;> simp only [] at hm
      case functionDeclaration =>
        simp only [List.mem_singleton] at hm
        subst hm
        exact ⟨h1, h2, h3⟩
      case arrowFunctionExpression =>
        by_cases hpk : pk = NodeKind.variableDeclarator
        · rw [if_pos hpk] at hm
          simp only [List.mem_singleton] at hm
          subst hm
          exact ⟨h1, h2, h3⟩
        · rw [if_neg hpk] at hm
          exact absurd hm (List.not_mem_nil sp)
      case classMethod =>
        simp only [List.mem_singleton] at hm
        subst hm
        exact ⟨h1, h2, h3⟩
      case objectMethod =>
        simp only [List.mem_singleton] at hm
        subst hm
        exact ⟨h1, h2, h3⟩
      case variableDeclarator => exact absurd hm (List.not_mem_nil sp)
      case other => exact absurd hm (List.not_mem_nil sp)
    · have hb := collectForest_bounds src cs k nm s e hcs sp hm
      exact ⟨le_trans h1 hb.1, hb.2.1, le_trans hb.2.2 h3⟩

theorem collectForest_bounds (src : List Char) :
    ∀ (fr : Forest) (pk : NodeKind) (pn : Option (List Char)) (lo hi : Nat),
      forestWf lo hi fr = true →
      ∀ sp ∈ collectForest src pk pn fr,
        lo ≤ sp.start ∧ sp.start ≤ sp.stop ∧ sp.stop ≤ hi
  | Forest.nil => by
    intro pk pn lo hi _ sp hsp
    simp [collectForest] at hsp
  | Forest.cons n rest => by
    intro pk pn lo hi hwf sp hsp
    simp only [forestWf, Bool.and_eq_true] at hwf
    obtain ⟨hn, hrest⟩ := hwf
    simp only [collectForest] at hsp
    rcases List.mem_append.mp hsp with hm | hm
    · exact collectNode_bounds src n pk pn lo hi hn sp hm
    · have hb := collectForest_bounds src rest pk pn n.stop hi hrest sp hm
      have hf := nodeWf_fields lo hi n hn
      exact ⟨le_trans (le_trans hf.1 hf.2.1) hb.1, hb.2.1, hb.2.2⟩

end

/-- Ordering of spans by start offset. -/
def startLE (a b : FnSpan) : Prop := a.start ≤ b.start

mutual

theorem collectNode_sorted (src : List Char) :
    ∀ (n : Node) (pk : NodeKind) (pn : Option (List Char)) (lo hi : Nat),
      nodeWf lo hi n = true →
      List.Pairwise startLE (collectNode src pk pn n)
  | Node.mk k nm s e cs => by
    intro pk pn lo hi hwf
    simp only [nodeWf, Bool.and_eq_true, decide_eq_true_eq] at hwf
    obtain ⟨⟨⟨h1, h2⟩, h3⟩, hcs⟩ := hwf
    simp only [collectNode]
    rw [List.pairwise_append]
    refine ⟨?_, collectForest_sorted src cs k nm s e hcs, ?_⟩
    · cases k <;> simp only []
      case functionDeclaration => simp
      case arrowFunctionExpression =>
        by_cases hpk : pk = NodeKind.variableDeclarator
        · rw [if_pos hpk]; simp
        · rw [if_neg hpk]; simp
      case classMethod => simp
      case objectMethod => simp
      case variableDeclarator => simp
      case other => simp
    · intro a ha b hb
      have hbB := collectForest_bounds src cs k nm s e hcs b hb
      cases k <;> simp only [] at ha
      case functionDeclaration =>
        simp only [List.mem_singleton] at ha
        subst ha
        exact hbB.1
      case arrowFunctionExpression =>
        by_cases hpk : pk = NodeKind.variableDeclarator
        · rw [if_pos hpk] at ha
          simp only [List.mem_singleton] at ha
          subst ha
          exact hbB.1
        · rw [if_neg hpk] at ha
          exact absurd ha (List.not_mem_nil a)
      case classMethod =>
        simp only [List.mem_singleton] at ha
        subst ha
        exact hbB.1
      case objectMethod =>
        simp only [List.mem_singleton] at ha
        subst ha
        exact hbB.1
      case variableDeclarator => exact absurd ha (List.not_mem_nil a)
      case other => exact absurd ha (List.not_mem_nil a)

theorem collectForest_sorted (src : List Char) :
    ∀ (fr : Forest) (pk : NodeKind) (pn : Option (List Char)) (lo hi : Nat),
      forestWf lo hi fr = true →
      List.Pairwise startLE (collectForest src pk pn fr)
  | Forest.nil => by
    intro pk pn lo hi _
    simp [collectForest]
  | Forest.cons n rest => by
    intro pk pn lo hi hwf
    simp only [forestWf, Bool.and_eq_true] at hwf
    obtain ⟨hn, hrest⟩ := hwf
    simp only [collectForest]
    rw [List.pairwise_append]
    refine ⟨collectNode_sorted src n pk pn lo hi hn,
      collectForest_sorted src rest pk pn n.stop hi hrest, ?_⟩
    intro a ha b hb
    have haB := collectNode_bounds src n pk pn n.start n.stop (nodeWf_self lo hi n hn) a ha
    have hbB := collectForest_bounds src rest pk pn n.stop hi hrest b hb
    exact le_trans haB.2.1 (le_trans haB.2.2 hbB.1)

end

/-- Mutual non-overlap of spans, as the claim states it: any two distinct
spans are disjoint ranges. -/
def spansDisjointB : List FnSpan → Bool
  | [] => true
  | a :: rest =>
    rest.all (fun b => decide (a.stop ≤ b.start) || decide (b.stop ≤ a.start)) &&
      spansDisjointB rest

/-- Source text with a nested documentable construct: an arrow function
bound to a declarator inside a named function declaration. -/
def srcNested : List Char := "function f() { const g = () => 1; }".toList

/-- The Babel tree for `srcNested` (offsets as the parser reports them):
`FunctionDeclaration f` spans `[0, 35)`; inside it the
`VariableDeclaration` spans `[15, 33)`, its `VariableDeclarator g` spans
`[21, 32)`, and the `ArrowFunctionExpression` spans `[25, 32)`. -/
def astNested : Node :=
  Node.mk NodeKind.other none 0 35
    (Forest.cons
      (Node.mk NodeKind.functionDeclaration (some "f".toList) 0 35
        (Forest.cons
          (Node.mk NodeKind.other none 15 33
            (Forest.cons
              (Node.mk NodeKind.variableDeclarator (some "g".toList) 21 32
                (Forest.cons
                  (Node.mk NodeKind.arrowFunctionExpression none 25 32 Forest.nil)
                  Forest.nil))
              Forest.nil))
          Forest.nil))
      Forest.nil)

/-- C2 counterexample: on a well-formed parse of a nested function, the
extractor emits the outer declaration's span `[0, 35)` and the inner
arrow's span `[25, 32)`, which overlap, refuting mutual non-overlap. -/
theorem c2_extract_overlap_counterexample :
    nodeWf 0 srcNested.length astNested = true ∧
    extractFunctions srcNested astNested
      = [⟨some "f".toList, sliceStr srcNested 0 35, 0, 35⟩,
         ⟨some "g".toList, sliceStr srcNested 25 32, 25, 32⟩] ∧
    spansDisjointB (extractFunctions srcNested astNested) = false :=
  ⟨by decide, by decide, by decide⟩

/-- C2 (amended): for every source text whose parse is well formed, the
extracted spans have valid offsets (`start ≤ stop ≤ length`) and are
emitted in ascending (non-decreasing) start-offset order; they are NOT
mutually non-overlapping in general, since a documentable construct
nested inside another yields a span contained in the outer span. -/
theorem c2_extract_spans_amended (src : List Char) (ast : Node)
    (hwf : nodeWf 0 src.length ast = true) :
    (∀ sp ∈ extractFunctions src ast, sp.start ≤ sp.stop ∧ sp.stop ≤ src.length) ∧
    List.Pairwise startLE (extractFunctions src ast) := by
  constructor
  · intro sp hsp
    have hb := collectNode_bounds src ast NodeKind.other none 0 src.length hwf sp hsp
    exact ⟨hb.2.1, hb.2.2⟩
  · exact collectNode_sorted src ast NodeKind.other none 0 src.length hwf

/-- Witness for C2 (amended) at the concrete nested-function parse. -/
theorem c2_extract_spans_amended_witness :
    nodeWf 0 srcNested.length astNested = true ∧
    List.Pairwise startLE (extractFunctions srcNested astNested) :=
  ⟨by decide, (c2_extract_spans_amended srcNested astNested (by decide)).2⟩

/-! ### Configuration resolution (lines 11-18 and 272-293)

`config` is built from the environment; `main` then overwrites it via
`Object.assign` with the values of `options`, each of which is either a
CLI flag value or a fallback.  `apiKey`, `model` and `format` fall back to
the environment-resolved config; `dryRun` is `args.includes('--dry-run')`
with no fallback, so the environment `DRY_RUN` value is discarded whenever
`main` runs.  A flag's value is the argument after its first occurrence
(`Option.none` models JavaScript `undefined` when it is absent). -/

structure EnvModel where
  OPENAI_API_KEY : Option String
  MAX_RETRIES : Option String
  SUPPORTED_EXTENSIONS : Option String
  OPENAI_MODEL : Option String
  OUTPUT_FORMAT : Option String
  DRY_RUN : Option String

/-- JavaScript `String.prototype.split(',')`: comma-separated segments,
empty segments included. -/
def splitComma : List Char → List (List Char)
  | [] => [[]]
  | c :: t =>
    match splitComma t with
    | [] => [[c]]
    | h :: rest => if c == ',' then [] :: h :: rest else (c :: h) :: rest

/-- The effective configuration record. -/
structure Config where
  openaiApiKey : String
  maxRetries : Nat
  supportedExtensions : List (List Char)
  modelName : String
  outputFormat : String
  dryRun : Bool
deriving DecidableEq

/-- Default supported extensions (line 14). -/
def defaultExtensions : List (List Char) :=
  [".js".toList, ".jsx".toList, ".ts".toList, ".tsx".toList]

/-- Embedding of the `config` initializer (lines 11-18).  `MAX_RETRIES`
is modelled for decimal-digit values: `Number(s) || 3` maps an absent,
non-numeric or zero value to 3 (negative or fractional env values are out
of scope of the claims). -/
def configFromEnv (env : EnvModel) : Config :=
  { openaiApiKey := env.OPENAI_API_KEY.getD ""
    maxRetries :=
      match env.MAX_RETRIES with
      | none => 3
      | some s =>
        match s.toNat? with
        | none => 3
        | some 0 => 3
        | some n => n
    supportedExtensions :=
      match env.SUPPORTED_EXTENSIONS with
      | none => defaultExtensions
      | some s => splitComma s.toList
    modelName := env.OPENAI_MODEL.getD "gpt-4o"
    outputFormat := env.OUTPUT_FORMAT.getD "jsdoc"
    dryRun := env.DRY_RUN == some "true" }

/-- Index of the first occurrence of `flag` (JavaScript `indexOf`). -/
def argIndex : List String → String → Option Nat
  | [], _ => none
  | a :: r, f => if a = f then some 0 else (argIndex r f).map (· + 1)

/-- The argument after the first occurrence of `flag`
(`args[args.indexOf(flag) + 1]`), `none` when it runs off the end. -/
def argValueAfter (args : List String) (flag : String) : Option String :=
  (argIndex args flag).bind (fun i => args.get? (i + 1))

/-- The option values `main` assigns back onto `config` (lines 272-293). -/
structure ResolvedOptions where
  apiKey : Option String
  recursive : Bool
  modelName : Option String
  format : Option String
  dryRun : Bool
deriving DecidableEq

/-- Embedding of the option resolution in `main`: a ternary on
`args.includes(flag)` for api key, model and format; bare `includes` for
`recursive` and `dryRun`. -/
def resolveOptions (cfg : Config) (args : List String) : ResolvedOptions :=
  { apiKey := if (argIndex args "--api-key").isSome then argValueAfter args "--api-key"
      else some cfg.openaiApiKey
    recursive := (argIndex args "--recursive").isSome
    modelName := if (argIndex args "--model").isSome then argValueAfter args "--model"
      else some cfg.modelName
    format := if (argIndex args "--format").isSome then argValueAfter args "--format"
      else some cfg.outputFormat
    dryRun := (argIndex args "--dry-run").isSome }

/-- Environment with `DRY_RUN=true` and nothing else set. -/
def envDry : EnvModel :=
  ⟨none, none, none, none, none, some "true"⟩

/-- Environment setting api key, model, format and `DRY_RUN=true`. -/
def envFull : EnvModel :=
  ⟨some "k-env", none, none, some "m-env", some "tsdoc", some "true"⟩

/-- C6: the environment resolves `dryRun` to true, and api key, model and
format follow flag-over-environment precedence, but the resolution in
`main` sets `dryRun` from the flag's presence alone, so with `DRY_RUN`
set to `"true"` and no `--dry-run` flag the effective value is false —
the code drops the environment value, contradicting the claim. -/
theorem c6_dry_run_env_ignored :
    (configFromEnv envDry).dryRun = true ∧
    (resolveOptions (configFromEnv envDry) ["src"]).dryRun = false ∧
    (resolveOptions (configFromEnv envFull) ["src"]).dryRun = false ∧
    (resolveOptions (configFromEnv envDry) ["src", "--dry-run"]).dryRun = true ∧
    (resolveOptions (configFromEnv envFull) ["src"]).modelName = some "m-env" ∧
    (resolveOptions (configFromEnv envFull) ["src", "--model", "m2"]).modelName
      = some "m2" ∧
    (resolveOptions (configFromEnv envFull) ["src"]).apiKey = some "k-env" ∧
    (resolveOptions (configFromEnv envFull) ["src", "--api-key", "k2"]).apiKey
      = some "k2" ∧
    (resolveOptions (configFromEnv envFull) ["src"]).format = some "tsdoc" ∧
    (resolveOptions (configFromEnv envFull) ["src", "--format", "jsdoc"]).format
      = some "jsdoc" :=
  ⟨rfl, rfl, rfl, rfl, rfl, rfl, rfl, rfl, rfl, rfl⟩

/-! ### The directory walker `processDirectory` (lines 228-246)

A directory tree is a forest of named entries.  The walker recurses into
every directory entry unconditionally and selects exactly the files whose
name ends with one of the supported extensions, in entry order; paths are
joined with `/`. -/

mutual
inductive FSEntry where
  | file (name : List Char)
  | dir (name : List Char) (entries : FSList)
inductive FSList where
  | nil
  | cons (e : FSEntry) (rest : FSList)
end

/-- `path.join(dirPath, name)`. -/
def pjoin (dirPath name : List Char) : List Char := dirPath ++ '/' :: name

/-- `config.supportedExtensions.some(ext => file.endsWith(ext))`. -/
def hasSupportedExt (exts : List (List Char)) (name : List Char) : Bool :=
  exts.any (fun ext => ext.isSuffixOf name)

mutual
/-- Paths processed from one directory entry, mirroring lines 232-240:
recurse into a directory unconditionally, process a file when its name
has a supported extension. -/
def walkEntry (exts : List (List Char)) (dirPath : List Char) : FSEntry → List (List Char)
  | .file name => if hasSupportedExt exts name then [pjoin dirPath name] else []
  | .dir name sub => walkList exts (pjoin dirPath name) sub
/-- Paths processed from a list of entries, in entry order. -/
def walkList (exts : List (List Char)) (dirPath : List Char) : FSList → List (List Char)
  | .nil => []
  | .cons e rest => walkEntry exts dirPath e ++ walkList exts dirPath rest
end

mutual
/-- All descendant files of an entry as `(path, name)` pairs — the
specification-side description of the walk: every file in the tree, no
directory ever filtered. -/
def allFilesEntry (dirPath : List Char) : FSEntry → List (List Char × List Char)
  | .file name => [(pjoin dirPath name, name)]
  | .dir name sub => allFilesList (pjoin dirPath name) sub
/-- All descendant files of a forest. -/
def allFilesList (dirPath : List Char) : FSList → List (List Char × List Char)
  | .nil => []
  | .cons e rest => allFilesEntry dirPath e ++ allFilesList dirPath rest
end

mutual

theorem walkEntry_eq_filter (exts : List (List Char)) :
    ∀ (e : FSEntry) (dirPath : List Char),
      walkEntry exts dirPath e
        = ((allFilesEntry dirPath e).filter (fun pn => hasSupportedExt exts pn.2)).map
            Prod.fst
  | FSEntry.file name => by
    intro dirPath
    by_cases h : hasSupportedExt exts name = true
    · simp [walkEntry, allFilesEntry, List.filter, h]
    · simp [walkEntry, allFilesEntry, List.filter, h]
  | FSEntry.dir name sub => by
    intro dirPath
    simp only [walkEntry, allFilesEntry]
    exact walkList_eq_filter exts sub (pjoin dirPath name)

theorem walkList_eq_filter (exts : List (List Char)) :
    ∀ (es : FSList) (dirPath : List Char),
      walkList exts dirPath es
        = ((allFilesList dirPath es).filter (fun pn => hasSupportedExt exts pn.2)).map
            Prod.fst
  | FSList.nil => by
    intro dirPath
    simp [walkList, allFilesList]
  | FSList.cons e rest => by
    intro dirPath
    simp only [walkList, allFilesList, List.filter_append, List.map_append]
    rw [walkEntry_eq_filter exts e dirPath, walkList_eq_filter exts rest dirPath]

end

/-- C7: the walk processes exactly the descendant files whose name ends
with a supported extension (directories are recursed into
unconditionally, so every descendant file is considered), in traversal
order; over `{a.js, b.py, sub/c.ts}` with the default extensions it
processes `a.js` and `sub/c.ts` only. -/
theorem c7_directory_walk :
    (∀ (exts : List (List Char)) (dirPath : List Char) (entries : FSList),
      walkList exts dirPath entries
        = ((allFilesList dirPath entries).filter (fun pn => hasSupportedExt exts pn.2)).map
            Prod.fst) ∧
    walkList defaultExtensions "r".toList
        (FSList.cons (FSEntry.file "a.js".toList)
          (FSList.cons (FSEntry.file "b.py".toList)
            (FSList.cons
              (FSEntry.dir "sub".toList
                (FSList.cons (FSEntry.file "c.ts".toList) FSList.nil))
              FSList.nil)))
      = ["r/a.js".toList, "r/sub/c.ts".toList] :=
  ⟨fun exts dirPath entries => walkList_eq_filter exts entries dirPath, by decide⟩

/-! ### `processFile` (lines 173-226) and `processDirectory` (228-246)

The filesystem is an association list from path to content; `readFile` is
lookup (failing when the path is absent), `writeFile` replaces or adds
the entry.  The parser and the documentation generator are the two
external calls of `processFile`; they enter as oracles
`parseOf : content → Except msg Node` and
`docOf : snippet → Except GenErr text` (the latter abstracting
`generateDocumentation`, applied first to the whole file and then to each
extracted function's source slice).  Each step's failure propagates as an
error — both functions re-throw after logging (lines 222-225, 242-245). -/

inductive RunErr where
  | fileNotFound (path : List Char)
  | parseFailed (msg : List Char)
  | generationFailed (e : GenErr)
deriving DecidableEq

/-- Content lookup by path (`fs.readFile`). -/
def lookupFile : List (List Char × List Char) → List Char → Option (List Char)
  | [], _ => none
  | (q, v) :: r, p => if q = p then some v else lookupFile r p

/-- Write by path (`fs.writeFile`): replace the entry or append it. -/
def setFile : List (List Char × List Char) → List Char → List Char →
    List (List Char × List Char)
  | [], p, c => [(p, c)]
  | (q, v) :: r, p, c => if q = p then (p, c) :: r else (q, v) :: setFile r p c

/-- Documentation of every extracted function, in order (the `Promise.all`
over `functions.map` of lines 182-190; results are reassembled in extract
order): the pair of original start offset and generated block. -/
def docAll (docOf : List Char → Except GenErr (List Char)) :
    List FnSpan → Except GenErr (List (Nat × List Char))
  | [] => Except.ok []
  | f :: rest =>
    match docOf f.code, docAll docOf rest with
    | Except.ok d, Except.ok ds => Except.ok ((f.start, d) :: ds)
    | Except.error e, _ => Except.error e
    | _, Except.error e => Except.error e

/-- Console header of the dry-run branch (line 214). -/
def dryRunBanner (path : List Char) : List Char := "Dry run output for ".toList ++ path

/-- Console message of the write branch (line 220). -/
def documentedBanner (path : List Char) : List Char := "Documented ".toList ++ path

/-- Embedding of `processFile`: read, generate the file-level block,
extract and document the functions, splice, then either print (dry run)
or write.  The result pairs the filesystem after the call with the
console lines emitted. -/
def processFile (dryRun : Bool) (parseOf : List Char → Except (List Char) Node)
    (docOf : List Char → Except GenErr (List Char))
    (fs : List (List Char × List Char)) (path : List Char) :
    Except RunErr (List (List Char × List Char) × List (List Char)) :=
  match lookupFile fs path with
  | none => Except.error (RunErr.fileNotFound path)
  | some code =>
    match docOf code with
    | Except.error e => Except.error (RunErr.generationFailed e)
    | Except.ok fileDoc =>
      match parseOf code with
      | Except.error m => Except.error (RunErr.parseFailed m)
      | Except.ok ast =>
        match docAll docOf (extractFunctions code ast) with
        | Except.error e => Except.error (RunErr.generationFailed e)
        | Except.ok funcs =>
          cond dryRun
            (Except.ok (fs, [dryRunBanner path, spliceDocs code fileDoc funcs]))
            (Except.ok (setFile fs path (spliceDocs code fileDoc funcs),
              [documentedBanner path]))

theorem lookupFile_setFile (fs : List (List Char × List Char)) (p c : List Char) :
    lookupFile (setFile fs p c) p = some c := by
  induction fs with
  | nil => simp [setFile, lookupFile]
  | cons hd r ih =>
    obtain ⟨q, v⟩ := hd
    by_cases hq : q = p
    · simp [setFile, lookupFile, hq]
    · simp only [setFile, lookupFile, if_neg hq]
      exact ih

/-- C8: a successful dry run leaves the filesystem exactly as it was, its
console output is the banner followed by the spliced result, and that
result is byte-for-byte what the non-dry run writes to the file. -/
theorem c8_dry_run_no_write (parseOf : List Char → Except (List Char) Node)
    (docOf : List Char → Except GenErr (List Char))
    (fs : List (List Char × List Char)) (path : List Char)
    (r : List (List Char × List Char) × List (List Char))
    (hdry : processFile true parseOf docOf fs path = Except.ok r) :
    r.1 = fs ∧
    r.2 = [dryRunBanner path, r.2.getLastD []] ∧
    processFile false parseOf docOf fs path
      = Except.ok (setFile fs path (r.2.getLastD []), [documentedBanner path]) ∧
    lookupFile (setFile fs path (r.2.getLastD [])) path = some (r.2.getLastD []) := by
  unfold processFile at hdry ⊢
  cases hl : lookupFile fs path with
  | none =>
    rw [hl] at hdry
    exact absurd hdry (by simp)
  | some code =>
    simp only [hl] at hdry ⊢
    cases hd : docOf code with
    | error e =>
      rw [hd] at hdry
      exact absurd hdry (by simp)
    | ok fileDoc =>
      simp only [hd] at hdry ⊢
      cases hp : parseOf code with
      | error m =>
        rw [hp] at hdry
        exact absurd hdry (by simp)
      | ok ast =>
        simp only [hp] at hdry ⊢
        cases hda : docAll docOf (extractFunctions code ast) with
        | error e =>
          rw [hda] at hdry
          exact absurd hdry (by simp)
        | ok funcs =>
          simp only [hda, cond] at hdry ⊢
          have hr : r = (fs, [dryRunBanner path, spliceDocs code fileDoc funcs]) :=
            (Except.ok.inj hdry).symm
          subst hr
          exact ⟨rfl, rfl, rfl, lookupFile_setFile fs path _⟩

/-- Trivial parser oracle used by the C8 and C9 witnesses: a bare tree
with no documentable constructs. -/
def parseTrivial : List Char → Except (List Char) Node :=
  fun _ => Except.ok (Node.mk NodeKind.other none 0 1 Forest.nil)

/-- Constant generation oracle for the C8 witness. -/
def docConst : List Char → Except GenErr (List Char) :=
  fun _ => Except.ok "/**D*/".toList

/-- Filesystem with the single file `p` for the C8 witness. -/
def fsSingle : List (List Char × List Char) := [("p".toList, "x".toList)]

/-- Witness for C8 at a concrete one-file filesystem. -/
theorem c8_dry_run_no_write_witness :
    processFile true parseTrivial docConst fsSingle "p".toList
      = Except.ok (fsSingle, [dryRunBanner "p".toList, "/**D*/\n\nx".toList]) ∧
    (fsSingle, [dryRunBanner "p".toList, "/**D*/\n\nx".toList]).1 = fsSingle ∧
    processFile false parseTrivial docConst fsSingle "p".toList
      = Except.ok (setFile fsSingle "p".toList "/**D*/\n\nx".toList,
          [documentedBanner "p".toList]) :=
  ⟨by rfl,
    (c8_dry_run_no_write parseTrivial docConst fsSingle "p".toList _ (by rfl)).1,
    (c8_dry_run_no_write parseTrivial docConst fsSingle "p".toList
      (fsSingle, [dryRunBanner "p".toList, "/**D*/\n\nx".toList]) (by rfl)).2.2.1⟩

mutual
/-- Processing of one directory entry (lines 232-240): recurse into a
directory; process a file when its suffix matches; thread the filesystem
and stop at the first error. -/
def processEntry (dryRun : Bool) (parseOf : List Char → Except (List Char) Node)
    (docOf : List Char → Except GenErr (List Char)) (exts : List (List Char))
    (dirPath : List Char) (fs : List (List Char × List Char)) :
    FSEntry → List (List Char × List Char) × Option RunErr
  | .file name =>
    if hasSupportedExt exts name then
      match processFile dryRun parseOf docOf fs (pjoin dirPath name) with
      | Except.ok (fs', _) => (fs', none)
      | Except.error e => (fs, some e)
    else (fs, none)
  | .dir name sub => processList dryRun parseOf docOf exts (pjoin dirPath name) fs sub
/-- Processing of a list of entries in order, aborting on the first
error (the error re-thrown at line 244 propagates out of the loop). -/
def processList (dryRun : Bool) (parseOf : List Char → Except (List Char) Node)
    (docOf : List Char → Except GenErr (List Char)) (exts : List (List Char))
    (dirPath : List Char) (fs : List (List Char × List Char)) :
    FSList → List (List Char × List Char) × Option RunErr
  | .nil => (fs, none)
  | .cons e rest =>
    match processEntry dryRun parseOf docOf exts dirPath fs e with
    | (fs', none) => processList dryRun parseOf docOf exts dirPath fs' rest
    | (fs', some err) => (fs', some err)
end

/-- Concatenation of entry lists. -/
def fslAppend : FSList → FSList → FSList
  | .nil, ys => ys
  | .cons e rest, ys => FSList.cons e (fslAppend rest ys)

theorem processList_append_fail (dryRun : Bool)
    (parseOf : List Char → Except (List Char) Node)
    (docOf : List Char → Except GenErr (List Char)) (exts : List (List Char))
    (dirPath : List Char) :
    ∀ (pre : FSList) (fs fs1 : List (List Char × List Char)) (name : List Char)
      (post : FSList) (err : RunErr),
      processList dryRun parseOf docOf exts dirPath fs pre = (fs1, none) →
      hasSupportedExt exts name = true →
      processFile dryRun parseOf docOf fs1 (pjoin dirPath name) = Except.error err →
      processList dryRun parseOf docOf exts dirPath fs
          (fslAppend pre (FSList.cons (FSEntry.file name) post))
        = (fs1, some err)
  | FSList.nil => by
    intro fs fs1 name post err hpre hext hfail
    have hfs : fs = fs1 := congrArg Prod.fst hpre
    subst hfs
    simp only [fslAppend, processList, processEntry, if_pos hext, hfail]
  | FSList.cons e rest => by
    intro fs fs1 name post err hpre hext hfail
    simp only [processList] at hpre
    simp only [fslAppend, processList]
    cases hpe : processEntry dryRun parseOf docOf exts dirPath fs e with
    | mk fs' oerr =>
      cases oerr with
      | none =>
        rw [hpe] at hpre
        simp only [] at hpre
        simp only []
        exact processList_append_fail dryRun parseOf docOf exts dirPath rest fs' fs1
          name post err hpre hext hfail
      | some e2 =>
        rw [hpe] at hpre
        exact absurd (congrArg Prod.snd hpre) (by simp)

/-- C9: if the entries before a failing file process cleanly to state
`fs1` and the failing file's `processFile` errors there, the whole run
returns that error with the filesystem exactly `fs1`: writes made before
the failure remain, the error aborts the batch, and no later entry is
processed (no rollback). -/
theorem c9_failure_aborts_run (dryRun : Bool)
    (parseOf : List Char → Except (List Char) Node)
    (docOf : List Char → Except GenErr (List Char)) (exts : List (List Char))
    (dirPath : List Char) :
    ∀ (pre : FSList) (fs fs1 : List (List Char × List Char)) (name : List Char)
      (post : FSList) (err : RunErr),
      processList dryRun parseOf docOf exts dirPath fs pre = (fs1, none) →
      hasSupportedExt exts name = true →
      processFile dryRun parseOf docOf fs1 (pjoin dirPath name) = Except.error err →
      processList dryRun parseOf docOf exts dirPath fs
          (fslAppend pre (FSList.cons (FSEntry.file name) post))
        = (fs1, some err) :=
  processList_append_fail dryRun parseOf docOf exts dirPath

/-- Content-keyed generation oracle for the C9 witness: fails exactly on
the content of `d/b.js`. -/
def docFailB : List Char → Except GenErr (List Char) :=
  fun c =>
    if c = "B".toList then Except.error (GenErr.failedAfter 2 "down".toList)
    else Except.ok "/**D*/".toList

/-- Three-file directory for the C9 witness. -/
def fsThree : List (List Char × List Char) :=
  [("d/a.js".toList, "A".toList), ("d/b.js".toList, "B".toList),
    ("d/c.js".toList, "C".toList)]

/-- State after the first file was documented and written. -/
def fsThreeAfterA : List (List Char × List Char) :=
  [("d/a.js".toList, "/**D*/\n\nA".toList), ("d/b.js".toList, "B".toList),
    ("d/c.js".toList, "C".toList)]

/-- Witness for C9: `a.js` processes and is written, `b.js` fails, the
run stops with `a.js`'s write retained and `c.js` untouched. -/
theorem c9_failure_aborts_run_witness :
    processList false parseTrivial docFailB defaultExtensions "d".toList fsThree
        (FSList.cons (FSEntry.file "a.js".toList) FSList.nil)
      = (fsThreeAfterA, none) ∧
    hasSupportedExt defaultExtensions "b.js".toList = true ∧
    processFile false parseTrivial docFailB fsThreeAfterA (pjoin "d".toList "b.js".toList)
      = Except.error (RunErr.generationFailed (GenErr.failedAfter 2 "down".toList)) ∧
    processList false parseTrivial docFailB defaultExtensions "d".toList fsThree
        (fslAppend (FSList.cons (FSEntry.file "a.js".toList) FSList.nil)
          (FSList.cons (FSEntry.file "b.js".toList)
            (FSList.cons (FSEntry.file "c.js".toList) FSList.nil)))
      = (fsThreeAfterA, some (RunErr.generationFailed (GenErr.failedAfter 2 "down".toList))) :=
  ⟨by rfl, by rfl, by rfl,
    c9_failure_aborts_run false parseTrivial docFailB defaultExtensions "d".toList
      (FSList.cons (FSEntry.file "a.js".toList) FSList.nil) fsThree fsThreeAfterA
      "b.js".toList (FSList.cons (FSEntry.file "c.js".toList) FSList.nil)
      (RunErr.generationFailed (GenErr.failedAfter 2 "down".toList))
      (by rfl) (by rfl) (by rfl)⟩

end Autoscribe
